import Mathlib

/-!
Verification of the node-minitrace deferred console-logging modules.

The development embeds the two queue-based modules of the repository:

* `TraceConsole` embeds `src/packages/trace-console/index.js`: messages are
  tagged with a numeric type (`LOG = 1`, `WARN = 2`, `ERROR = 3`) and the
  drain routine dispatches on that tag to `console.log`, `console.warn` or
  `console.error`.
* `TraceLog` embeds `src/packages/trace-log/idex.js`: messages carry no type
  tag and the drain routine prints every message with `console.log`.

JavaScript strings are Lean `String`s, JavaScript numbers holding the
indentation level and width are `Int` (they are only ever integral), the
singly linked message queue with head/tail pointers is a Lean `List` in
insertion order (head of the list = head of the queue, appending = linking a
new message at the tail), and the JavaScript array used as a stack by
`push`/`pop` is a Lean `List` whose head is the stack top.  `util.format`
is an external collaborator: the public operations are modelled as taking
the already formatted message string; `util.format()` with no arguments
yields the empty string.  `console.log` writes to the standard output
stream and `console.warn` / `console.error` write to the standard error
stream; printing is modelled as emitting a list of
(console function, string) events.
-/

namespace TraceConsole

/-- Console functions used by the drain routine. -/
inductive ConsoleFn where
  | clog
  | cwarn
  | cerror
deriving DecidableEq, Repr

/-- Output channels of the host console. -/
inductive Chan where
  | out
  | err
deriving DecidableEq, Repr

/-- Channel written by each console function: `console.log` writes to the
standard output stream, `console.warn` and `console.error` to the standard
error stream. -/
def chanOf : ConsoleFn → Chan
  | ConsoleFn.clog => Chan.out
  | ConsoleFn.cwarn => Chan.err
  | ConsoleFn.cerror => Chan.err

/-- One printed line: the console function used and the string printed. -/
abbrev Line := ConsoleFn × String

/-- Embeds `repeat(str, count)`: `new Array(count + 1).join(str)` is `str`
concatenated `count` times. -/
def repeatStr (str : String) : Nat → String
  | 0 => ""
  | n + 1 => str ++ repeatStr str n

/-- Embeds `join2(str1, str2)`.  A JavaScript string is truthy exactly when
it is non-empty; `str2` is always an actual string at every call site (and
an `undefined` result of `pop()` on an empty array is modelled as `""`,
which `join2` treats identically since both are falsy). -/
def join2 (str1 str2 : String) : String :=
  if str1 ≠ "" then
    if str2 ≠ "" then str1 ++ " " ++ str2 else str1
  else
    str2

/-- Embeds the `Message` constructor (the `next` link is represented by the
position in the queue list). -/
structure Message where
  text : String
  width : Int
  type : Nat
deriving DecidableEq, Repr

/-- `Message.prototype.LOG`. -/
def Message.LOG : Nat := 1

/-- `Message.prototype.WARN`. -/
def Message.WARN : Nat := 2

/-- `Message.prototype.ERROR`. -/
def Message.ERROR : Nat := 3

/-- Embeds the private module state `ctx` (head/tail of the linked queue
are the list `queue` in insertion order; `names` holds the stack with its
top at the list head). -/
structure Ctx where
  indentSize : Int
  indentLevel : Int
  indentWidth : Int
  queue : List Message
  names : List String
deriving DecidableEq, Repr

/-- The initial module state. -/
def ctx0 : Ctx :=
  { indentSize := 2, indentLevel := 0, indentWidth := 0, queue := [], names := [] }

/-- Replaces every newline character of the text by a newline followed by
the indentation characters, as `text.replace(/\n/g, '\n' + indentation)`
does. -/
def replaceNl (ind : List Char) : List Char → List Char
  | [] => []
  | c :: cs =>
    if c = '\n' then '\n' :: (ind ++ replaceNl ind cs)
    else c :: replaceNl ind cs

/-- Embeds the helper `indent(indentation, text)`: when the indentation is
non-empty, substitute it at every newline of the text and prepend it. -/
def indent (ind text : String) : String :=
  if ind.length ≠ 0 then
    let t := if text.data.contains '\n' then String.mk (replaceNl ind.data text.data) else text
    ind ++ t
  else text

/-- Embeds `write(text, type)`: link a new message carrying the current
indentation width at the queue tail. -/
def write (ctx : Ctx) (text : String) (type : Nat) : Ctx :=
  { ctx with queue := ctx.queue ++ [⟨text, ctx.indentWidth, type⟩] }

/-- Embeds `exports.log` applied to an already formatted message. -/
def log (ctx : Ctx) (msg : String) : Ctx :=
  write ctx msg Message.LOG

/-- Embeds `exports.warn` applied to an already formatted message. -/
def warn (ctx : Ctx) (msg : String) : Ctx :=
  write ctx msg Message.WARN

/-- Embeds `exports.error` applied to an already formatted message. -/
def error (ctx : Ctx) (msg : String) : Ctx :=
  write ctx msg Message.ERROR

/-- Embeds `exports.indent` (alias `group`): log the optional message, then
increment the level and recompute the width. -/
def indentOp (ctx : Ctx) (msg : Option String) : Ctx :=
  let c := match msg with
    | some m => log ctx m
    | none => ctx
  { c with indentLevel := c.indentLevel + 1,
           indentWidth := (c.indentLevel + 1) * c.indentSize }

/-- Embeds `exports.unindent` (alias `groupEnd`): decrement the level and
recompute the width only when the level is positive. -/
def unindent (ctx : Ctx) : Ctx :=
  if ctx.indentLevel > 0 then
    { ctx with indentLevel := ctx.indentLevel - 1,
               indentWidth := (ctx.indentLevel - 1) * ctx.indentSize }
  else ctx

/-- JavaScript `\w` word characters: ASCII letters, digits and the low
line. -/
def wordChar (c : Char) : Bool :=
  c.isAlphanum || c = '_'

/-- Embeds `message.match(/\w+/)`: the first maximal run of word
characters anywhere in the string, or `none` when the string has no word
character. -/
def firstWordMatch : List Char → Option (List Char)
  | [] => none
  | c :: cs =>
    if wordChar c then some (c :: cs.takeWhile wordChar)
    else firstWordMatch cs

/-- The name pushed by `enter`: `match ? match[0] : message`. -/
def enterName (msg : String) : String :=
  match firstWordMatch msg.data with
  | some w => String.mk w
  | none => msg

/-- Embeds `exports.enter` applied to the already formatted message: push
the first word (or the whole message), enqueue the message behind the open
marker at the current width, then increase the indentation. -/
def enter (ctx : Ctx) (msg : String) : Ctx :=
  let ctx1 := { ctx with names := enterName msg :: ctx.names }
  let text := ">" ++ repeatStr " " (ctx.indentSize - 1).toNat ++ msg
  let ctx2 := write ctx1 text Message.LOG
  indentOp ctx2 none

/-- Embeds `exports.leave` applied to the already formatted message: pop
the saved name (an empty pop yields `undefined`, which behaves as the empty
string), build the close-marker text, decrease the indentation, then
enqueue the text at the new width. -/
def leave (ctx : Ctx) (msg : String) : Ctx :=
  let name := ctx.names.headD ""
  let ctx1 := { ctx with names := ctx.names.tail }
  let text := "<" ++ repeatStr " " (ctx.indentSize - 1).toNat ++ join2 name msg
  let ctx2 := unindent ctx1
  write ctx2 text Message.LOG

/-- The indentation string rebuilt by the drain loop: `repeat(' ', width)`. -/
def spaces (n : Nat) : String := repeatStr " " n

/-- The console function selected by the drain loop for a message type:
`LOG` prints with `console.log`, `WARN` with `console.warn`, anything else
with `console.error`. -/
def fnOf (type : Nat) : ConsoleFn :=
  if type = Message.LOG then ConsoleFn.clog
  else if type = Message.WARN then ConsoleFn.cwarn
  else ConsoleFn.cerror

/-- Embeds the do-while loop of `show()`: the last seen width and its
indentation string are carried along, and the indentation string is rebuilt
only when the current message's width differs. -/
def showLoop (iw : Int) (ind : String) : List Message → List Line
  | [] => []
  | m :: rest =>
    let p := if m.width ≠ iw then (m.width, spaces m.width.toNat) else (iw, ind)
    (fnOf m.type, indent p.2 m.text) :: showLoop p.1 p.2 rest

/-- The separator line printed before a non-empty queue: 80 dashes. -/
def headerText : String := repeatStr "-" 80

/-- Embeds `show()` as a state transformer: it assigns no field of `ctx`,
so the resulting state is built from exactly the fields it started with,
and it returns the list of printed lines (header first when the queue is
non-empty, nothing otherwise). -/
def drain (ctx : Ctx) : Ctx × List Line :=
  match ctx.queue with
  | [] => (ctx, [])
  | q => (ctx, (ConsoleFn.clog, headerText) :: showLoop 0 "" q)

/-- The public operations, each carrying its already formatted message. -/
inductive Op where
  | log (msg : String)
  | warn (msg : String)
  | error (msg : String)
  | indent (msg : Option String)
  | unindent
  | enter (msg : String)
  | leave (msg : String)
deriving DecidableEq, Repr

/-- One public call. -/
def step (ctx : Ctx) : Op → Ctx
  | Op.log m => log ctx m
  | Op.warn m => warn ctx m
  | Op.error m => error ctx m
  | Op.indent m => indentOp ctx m
  | Op.unindent => unindent ctx
  | Op.enter m => enter ctx m
  | Op.leave m => leave ctx m

/-- Runs a sequence of public calls from the initial module state. -/
def runOps (ops : List Op) : Ctx :=
  ops.foldl step ctx0

end TraceConsole

namespace TraceLog

/-- Embeds the `Message` constructor of `trace-log`: no type tag is
stored. -/
structure Message where
  text : String
  width : Int
deriving DecidableEq, Repr

/-- Embeds the private module state `ctx` of `trace-log`. -/
structure Ctx where
  indentSize : Int
  indentLevel : Int
  indentWidth : Int
  queue : List Message
  names : List String
deriving DecidableEq, Repr

/-- The initial module state of `trace-log`. -/
def ctx0 : Ctx :=
  { indentSize := 2, indentLevel := 0, indentWidth := 0, queue := [], names := [] }

/-- Embeds `write(text)` of `trace-log`. -/
def write (ctx : Ctx) (text : String) : Ctx :=
  { ctx with queue := ctx.queue ++ [⟨text, ctx.indentWidth⟩] }

/-- Embeds `exports.log` of `trace-log` applied to a formatted message. -/
def log (ctx : Ctx) (msg : String) : Ctx :=
  write ctx msg

/-- Embeds `exports.warn` of `trace-log` applied to a formatted message:
it enqueues exactly as `log` does. -/
def warn (ctx : Ctx) (msg : String) : Ctx :=
  write ctx msg

/-- Embeds `exports.error` of `trace-log` applied to a formatted message:
it enqueues exactly as `log` does. -/
def error (ctx : Ctx) (msg : String) : Ctx :=
  write ctx msg

/-- Embeds the do-while loop of `show()` in `trace-log`: every message is
printed with `console.log`. -/
def showLoop (iw : Int) (ind : String) : List Message → List TraceConsole.Line
  | [] => []
  | m :: rest =>
    let p := if m.width ≠ iw then (m.width, TraceConsole.spaces m.width.toNat) else (iw, ind)
    (TraceConsole.ConsoleFn.clog, TraceConsole.indent p.2 m.text) :: showLoop p.1 p.2 rest

/-- Embeds `show()` of `trace-log` as a state transformer returning the
printed lines. -/
def drain (ctx : Ctx) : Ctx × List TraceConsole.Line :=
  match ctx.queue with
  | [] => (ctx, [])
  | q => (ctx, (TraceConsole.ConsoleFn.clog, TraceConsole.headerText) :: showLoop 0 "" q)

end TraceLog

namespace SpecSide

/-!
Definitions written from the words of the specification (never from the
source), used to state refinement-style claims and counterexamples.
-/

open TraceConsole

/-- Splits a character list at every newline; a measuring device for the
multi-line indentation claim.  The result always has at least one line. -/
def splitNl : List Char → List (List Char)
  | [] => [[]]
  | c :: cs =>
    if c = '\n' then [] :: splitNl cs
    else (c :: (splitNl cs).headD []) :: (splitNl cs).tail

/-- Modelled from the spec: the first whitespace-delimited token of a
message, falling back to the whole message when no such token exists. -/
def specFirstToken (s : String) : String :=
  let rest := s.data.dropWhile Char.isWhitespace
  if rest = [] then s
  else String.mk (rest.takeWhile (fun c => !c.isWhitespace))

/-- Modelled from the spec: the popped name and the leave message joined
with one separating space when both are non-empty, the name alone when
only the name exists, the message alone when only the message exists, and
the empty string when neither exists. -/
def specJoin (name msg : String) : String :=
  if name ≠ "" ∧ msg ≠ "" then name ++ " " ++ msg
  else if name ≠ "" then name
  else if msg ≠ "" then msg
  else ""

/-- Modelled from the spec: the queue predicted for a sequence of plain
`log`/`warn`/`error` calls interleaved with bare indentation changes — one
message per trace call, in call order, stamped with the width (level times
the unit 2) current at the call, the level floored at zero. -/
def c1Msgs (lvl : Nat) : List Op → List Message
  | [] => []
  | Op.log m :: r => ⟨m, (lvl : Int) * 2, Message.LOG⟩ :: c1Msgs lvl r
  | Op.warn m :: r => ⟨m, (lvl : Int) * 2, Message.WARN⟩ :: c1Msgs lvl r
  | Op.error m :: r => ⟨m, (lvl : Int) * 2, Message.ERROR⟩ :: c1Msgs lvl r
  | Op.indent _ :: r => c1Msgs (lvl + 1) r
  | Op.unindent :: r => c1Msgs (lvl - 1) r
  | Op.enter _ :: r => c1Msgs lvl r
  | Op.leave _ :: r => c1Msgs lvl r

/-- The operations the first claim quantifies over: plain trace calls and
bare indentation changes. -/
def basicOp : Op → Bool
  | Op.log _ => true
  | Op.warn _ => true
  | Op.error _ => true
  | Op.indent none => true
  | Op.unindent => true
  | _ => false

/-- How the drain loop renders one queued message: the console function of
its type tag and its text behind the indentation string of its stored
width. -/
def render (m : Message) : Line :=
  (fnOf m.type, indent (spaces m.width.toNat) m.text)

end SpecSide

namespace TraceConsole

open SpecSide

/-- The drain loop rebuilds the indentation string lazily, but whenever the
carried string matches the carried width it prints every message behind the
indentation of that message's own stored width. -/
theorem showLoop_render (q : List Message) :
    ∀ iw : Int, showLoop iw (spaces iw.toNat) q = q.map render := by
  induction q with
  | nil => intro iw; rfl
  | cons m rest ih =>
    intro iw
    by_cases h : m.width = iw
    · simp [showLoop, h, render, ih]
    · simp [showLoop, h, render, ih]

/-- What `show()` prints: nothing on an empty queue, otherwise the header
line followed by one rendered line per queued message, in queue order. -/
theorem drain_snd (c : Ctx) :
    (drain c).2 =
      if c.queue = [] then []
      else (ConsoleFn.clog, headerText) :: c.queue.map render := by
  have h0 : ("" : String) = spaces ((0 : Int)).toNat := rfl
  cases hq : c.queue with
  | nil => simp [drain, hq]
  | cons m rest =>
    simp only [drain, hq]
    rw [h0, showLoop_render]
    simp

/-- `show()` assigns no field of the module state. -/
theorem drain_fst (c : Ctx) : (drain c).1 = c := by
  cases hq : c.queue <;> simp [drain, hq]

/-- Reachability invariant of the module state: the level is non-negative,
the width is the level times the unit, and the unit is the constant 2. -/
def Inv (c : Ctx) : Prop :=
  0 ≤ c.indentLevel ∧ c.indentWidth = c.indentLevel * c.indentSize ∧ c.indentSize = 2

theorem inv_step (c : Ctx) (op : Op) (h : Inv c) : Inv (step c op) := by
  obtain ⟨h1, h2, h3⟩ := h
  cases op with
  | log m => exact ⟨h1, h2, h3⟩
  | warn m => exact ⟨h1, h2, h3⟩
  | error m => exact ⟨h1, h2, h3⟩
  | indent m =>
    cases m with
    | none => exact ⟨show (0 : Int) ≤ c.indentLevel + 1 by omega, rfl, h3⟩
    | some s => exact ⟨show (0 : Int) ≤ c.indentLevel + 1 by omega, rfl, h3⟩
  | unindent =>
    by_cases hl : c.indentLevel > 0
    · simp only [step, unindent, if_pos hl]
      exact ⟨show (0 : Int) ≤ c.indentLevel - 1 by omega, rfl, h3⟩
    · simp only [step, unindent, if_neg hl]
      exact ⟨h1, h2, h3⟩
  | enter m => exact ⟨show (0 : Int) ≤ c.indentLevel + 1 by omega, rfl, h3⟩
  | leave m =>
    simp only [step, leave]
    by_cases hl : c.indentLevel > 0
    · simp only [unindent, if_pos hl]
      exact ⟨show (0 : Int) ≤ c.indentLevel - 1 by omega, rfl, h3⟩
    · simp only [unindent, if_neg hl]
      exact ⟨h1, h2, h3⟩

theorem inv_foldl (ops : List Op) :
    ∀ c : Ctx, Inv c → Inv (ops.foldl step c) := by
  induction ops with
  | nil => intro c h; exact h
  | cons op rest ih => intro c h; exact ih (step c op) (inv_step c op h)

theorem inv_runOps (ops : List Op) : Inv (runOps ops) :=
  inv_foldl ops ctx0 ⟨le_refl 0, rfl, rfl⟩

theorem spaces_data (n : Nat) : (spaces n).data = List.replicate n ' ' := by
  induction n with
  | zero => rfl
  | succ k ih =>
    show (" " ++ repeatStr " " k).data = _
    rw [String.data_append, List.replicate_succ]
    simpa [spaces] using ih

theorem nl_not_mem_spaces (n : Nat) : '\n' ∉ (spaces n).data := by
  rw [spaces_data]
  intro h
  have := List.eq_of_mem_replicate h
  exact absurd this (by decide)

theorem splitNl_ne_nil (l : List Char) : splitNl l ≠ [] := by
  cases l with
  | nil => simp [splitNl]
  | cons c cs =>
    by_cases h : c = '\n' <;> simp [splitNl, h]

theorem splitNl_cons_eq (l : List Char) :
    splitNl l = (splitNl l).headD [] :: (splitNl l).tail := by
  cases h : splitNl l with
  | nil => exact absurd h (splitNl_ne_nil l)
  | cons a t => rfl

theorem splitNl_append (p : List Char) (hp : '\n' ∉ p) (l : List Char) :
    splitNl (p ++ l) = (p ++ (splitNl l).headD []) :: (splitNl l).tail := by
  induction p with
  | nil => simpa using splitNl_cons_eq l
  | cons c p' ih =>
    have hc : c ≠ '\n' := fun h => hp (h ▸ List.mem_cons_self c p')
    have hp' : '\n' ∉ p' := fun h => hp (List.mem_cons_of_mem c h)
    simp [splitNl, hc, ih hp']

theorem no_nl_splitNl (cs : List Char) (h : '\n' ∉ cs) : splitNl cs = [cs] := by
  induction cs with
  | nil => rfl
  | cons c cs' ih =>
    have hc : c ≠ '\n' := fun hc => h (hc ▸ List.mem_cons_self c cs')
    have h' : '\n' ∉ cs' := fun hm => h (List.mem_cons_of_mem c hm)
    simp [splitNl, hc, ih h']

theorem replaceNl_splitNl (ind : List Char) (hi : '\n' ∉ ind) (cs : List Char) :
    splitNl (replaceNl ind cs) =
      (splitNl cs).headD [] :: ((splitNl cs).tail).map (fun l => ind ++ l) := by
  induction cs with
  | nil => rfl
  | cons c cs' ih =>
    by_cases hc : c = '\n'
    · subst hc
      simp only [replaceNl, if_pos rfl, splitNl]
      rw [splitNl_append ind hi, ih]
      rw [splitNl_cons_eq cs']
      simp
    · simp only [replaceNl, if_neg hc, splitNl, if_neg hc, ih]
      simp

/-- When the indentation string is `w` spaces, the helper `indent` prefixes
every line of the text with exactly those `w` spaces. -/
theorem indent_splitNl (w : Nat) (t : String) :
    splitNl (indent (spaces w) t).data
      = (splitNl t.data).map (fun l => (spaces w).data ++ l) := by
  by_cases hw : (spaces w).length = 0
  · have hd : (spaces w).data = [] := by
      cases h : (spaces w).data with
      | nil => rfl
      | cons a l =>
        exfalso
        have : (spaces w).length = (spaces w).data.length := rfl
        rw [this, h] at hw
        simp at hw
    rw [indent, if_neg (by simpa using hw)]
    simp [hd]
  · rw [indent, if_pos (by simpa using hw)]
    by_cases hnl : t.data.contains '\n'
    · simp only [hnl, if_pos rfl]
      show splitNl ((spaces w).data ++ (String.mk (replaceNl (spaces w).data t.data)).data) = _
      rw [show (String.mk (replaceNl (spaces w).data t.data)).data
            = replaceNl (spaces w).data t.data from rfl]
      rw [splitNl_append _ (nl_not_mem_spaces w),
          replaceNl_splitNl _ (nl_not_mem_spaces w)]
      rw [splitNl_cons_eq t.data]
      simp
    · simp only [hnl]
      show splitNl ((spaces w).data ++ t.data) = _
      have ht : '\n' ∉ t.data := by
        intro hm
        exact hnl (by simpa using hm)
      rw [splitNl_append _ (nl_not_mem_spaces w), no_nl_splitNl t.data ht]
      simp

/-- `join2` realizes the case analysis of the specification. -/
theorem join2_eq_specJoin (a b : String) : join2 a b = specJoin a b := by
  by_cases ha : a = "" <;> by_cases hb : b = "" <;>
    simp [join2, specJoin, ha, hb]

/-- `message.match(/\w+/)` skips to the first word character and takes the
maximal run of word characters from there. -/
theorem firstWordMatch_eq (cs : List Char) :
    firstWordMatch cs =
      (if cs.dropWhile (fun c => !wordChar c) = [] then none
       else some ((cs.dropWhile (fun c => !wordChar c)).takeWhile wordChar)) := by
  induction cs with
  | nil => rfl
  | cons c cs' ih =>
    by_cases hc : wordChar c
    · simp [firstWordMatch, hc, List.dropWhile, List.takeWhile]
    · simp [firstWordMatch, hc, List.dropWhile, ih]

/-- If no character of the message is a word character, the regex match
fails and `enter` saves the whole message. -/
theorem enterName_no_word (msg : String)
    (h : ∀ c ∈ msg.data, wordChar c = false) : enterName msg = msg := by
  rw [enterName, firstWordMatch_eq]
  have hd : msg.data.dropWhile (fun c => !wordChar c) = [] := by
    rw [List.dropWhile_eq_nil_iff]
    intro c hc
    simp [h c hc]
  rw [if_pos hd]

/-- Running the plain trace calls and bare indentation changes appends to
the queue exactly the messages the specification predicts, stamped with the
width current at each call. -/
theorem c1_queue (ops : List Op) :
    ∀ (c : Ctx) (lvl : Nat),
      (∀ op ∈ ops, SpecSide.basicOp op = true) →
      c.indentLevel = (lvl : Int) →
      c.indentWidth = (lvl : Int) * 2 →
      c.indentSize = 2 →
      (ops.foldl step c).queue = c.queue ++ SpecSide.c1Msgs lvl ops := by
  induction ops with
  | nil => intro c lvl _ _ _ _; simp [SpecSide.c1Msgs]
  | cons op rest ih =>
    intro c lvl hb hl hw hs
    have hbop := hb op (List.mem_cons_self op rest)
    have hbrest : ∀ o ∈ rest, SpecSide.basicOp o = true :=
      fun o ho => hb o (List.mem_cons_of_mem op ho)
    cases op with
    | log m =>
      rw [List.foldl_cons, ih (step c (Op.log m)) lvl hbrest hl hw hs]
      simp [step, log, write, SpecSide.c1Msgs, hw]
    | warn m =>
      rw [List.foldl_cons, ih (step c (Op.warn m)) lvl hbrest hl hw hs]
      simp [step, warn, write, SpecSide.c1Msgs, hw]
    | error m =>
      rw [List.foldl_cons, ih (step c (Op.error m)) lvl hbrest hl hw hs]
      simp [step, error, write, SpecSide.c1Msgs, hw]
    | indent mo =>
      cases mo with
      | some s => simp [SpecSide.basicOp] at hbop
      | none =>
        have hl' : (step c (Op.indent none)).indentLevel = ((lvl + 1 : Nat) : Int) := by
          show c.indentLevel + 1 = _
          rw [hl]; push_cast; ring
        have hw' : (step c (Op.indent none)).indentWidth = ((lvl + 1 : Nat) : Int) * 2 := by
          show (c.indentLevel + 1) * c.indentSize = _
          rw [hl, hs]; push_cast; ring
        rw [List.foldl_cons, ih (step c (Op.indent none)) (lvl + 1) hbrest hl' hw' hs]
        simp [step, indentOp, SpecSide.c1Msgs]
    | unindent =>
      by_cases h0 : lvl = 0
      · subst h0
        have hstep : step c Op.unindent = c := by
          simp [step, unindent, hl]
        rw [List.foldl_cons, hstep, ih c 0 hbrest hl hw hs]
        simp [SpecSide.c1Msgs]
      · have hpos : c.indentLevel > 0 := by rw [hl]; omega
        have hcast : (c.indentLevel - 1) = ((lvl - 1 : Nat) : Int) := by
          rw [hl]; omega
        have hl' : (step c Op.unindent).indentLevel = ((lvl - 1 : Nat) : Int) := by
          simp only [step, unindent, if_pos hpos]
          exact hcast
        have hw' : (step c Op.unindent).indentWidth = ((lvl - 1 : Nat) : Int) * 2 := by
          simp only [step, unindent, if_pos hpos]
          rw [hcast, hs]
        have hs' : (step c Op.unindent).indentSize = 2 := by
          simp only [step, unindent, if_pos hpos]
          exact hs
        rw [List.foldl_cons, ih (step c Op.unindent) (lvl - 1) hbrest hl' hw' hs']
        have hq : (step c Op.unindent).queue = c.queue := by
          simp [step, unindent, if_pos hpos]
        rw [hq]
        simp [SpecSide.c1Msgs]
    | enter m => simp [SpecSide.basicOp] at hbop
    | leave m => simp [SpecSide.basicOp] at hbop

end TraceConsole

namespace SpecSide

open TraceConsole

/-- Modelled from the amended claim: the first maximal run of word
characters anywhere in the message, or the whole message when it contains
no word character. -/
def specWordRun (s : String) : String :=
  if s.data.dropWhile (fun c => !wordChar c) = [] then s
  else String.mk ((s.data.dropWhile (fun c => !wordChar c)).takeWhile wordChar)

/-- The name `enter` pushes is exactly the first word-character run (or the
whole message). -/
theorem enterName_eq_specWordRun (msg : String) : enterName msg = specWordRun msg := by
  simp only [enterName, firstWordMatch_eq, specWordRun]
  by_cases h : msg.data.dropWhile (fun c => !wordChar c) = [] <;> simp [h]

end SpecSide

namespace TraceLog

/-- Every line the `trace-log` drain loop prints goes through
`console.log`. -/
theorem showLoop_fn (q : List Message) :
    ∀ (iw : Int) (ind : String) (ln : TraceConsole.Line),
      ln ∈ showLoop iw ind q → ln.1 = TraceConsole.ConsoleFn.clog := by
  induction q with
  | nil => intro iw ind ln h; simp [showLoop] at h
  | cons m rest ih =>
    intro iw ind ln h
    simp only [showLoop] at h
    rcases List.mem_cons.mp h with h1 | h2
    · rw [h1]
    · exact ih _ _ ln h2

/-- Every line `trace-log` prints at drain time, its header included, goes
through `console.log` and hence to the standard output stream. -/
theorem drain_fn (tc : Ctx) (ln : TraceConsole.Line)
    (h : ln ∈ (drain tc).2) : ln.1 = TraceConsole.ConsoleFn.clog := by
  cases hq : tc.queue with
  | nil => rw [drain.eq_def, hq] at h; simp at h
  | cons m rest =>
    rw [drain.eq_def, hq] at h
    simp only at h
    rcases List.mem_cons.mp h with h1 | h2
    · rw [h1]
    · exact showLoop_fn (m :: rest) 0 "" ln h2

end TraceLog

namespace TraceConsole

/-- Auxiliary invariant for the scope-stack claim: the level is
non-negative and the stack size is bounded by the level.  It is preserved
by every public operation except a bare `unindent`. -/
def InvStack (c : Ctx) : Prop :=
  0 ≤ c.indentLevel ∧ (c.names.length : Int) ≤ c.indentLevel

theorem invStack_step (c : Ctx) (op : Op) (hop : op ≠ Op.unindent)
    (h : InvStack c) : InvStack (step c op) := by
  obtain ⟨h1, h2⟩ := h
  cases op with
  | log m => exact ⟨h1, h2⟩
  | warn m => exact ⟨h1, h2⟩
  | error m => exact ⟨h1, h2⟩
  | indent mo =>
    cases mo with
    | none =>
      exact ⟨show (0 : Int) ≤ c.indentLevel + 1 by omega,
             show (c.names.length : Int) ≤ c.indentLevel + 1 by omega⟩
    | some s =>
      exact ⟨show (0 : Int) ≤ c.indentLevel + 1 by omega,
             show (c.names.length : Int) ≤ c.indentLevel + 1 by omega⟩
  | unindent => exact absurd rfl hop
  | enter m =>
    refine ⟨show (0 : Int) ≤ c.indentLevel + 1 by omega, ?_⟩
    show ((enterName m :: c.names).length : Int) ≤ c.indentLevel + 1
    rw [List.length_cons]
    push_cast
    omega
  | leave m =>
    by_cases hl : c.indentLevel > 0
    · refine ⟨?_, ?_⟩
      · simp only [step, leave, unindent, if_pos hl]
        show (0 : Int) ≤ c.indentLevel - 1
        omega
      · simp only [step, leave, unindent, if_pos hl]
        show (c.names.tail.length : Int) ≤ c.indentLevel - 1
        rw [List.length_tail]
        omega
    · refine ⟨?_, ?_⟩
      · simp only [step, leave, unindent, if_neg hl]
        exact h1
      · simp only [step, leave, unindent, if_neg hl]
        show (c.names.tail.length : Int) ≤ c.indentLevel
        rw [List.length_tail]
        omega

theorem invStack_foldl (ops : List Op) :
    ∀ c : Ctx, (∀ op ∈ ops, op ≠ Op.unindent) → InvStack c →
      InvStack (ops.foldl step c) := by
  induction ops with
  | nil => intro c _ h; exact h
  | cons op rest ih =>
    intro c hops h
    exact ih (step c op) (fun o ho => hops o (List.mem_cons_of_mem op ho))
      (invStack_step c op (hops op (List.mem_cons_self op rest)) h)

theorem invStack_runOps (ops : List Op) (h : ∀ op ∈ ops, op ≠ Op.unindent) :
    InvStack (runOps ops) :=
  invStack_foldl ops ctx0 h ⟨le_refl 0, by simp [ctx0]⟩

end TraceConsole

/-- C1: for every sequence of plain `log`/`warn`/`error` calls interleaved
with bare indentation changes, drain prints (after the header) exactly one
line per trace call, in call order, each line being the message text behind
the indentation of the width current at enqueue time; indentation changes
made after a call and before the drain leave that call's stored width
untouched. -/
theorem claim1_drain_one_line_per_call (ops : List TraceConsole.Op)
    (hb : ∀ op ∈ ops, SpecSide.basicOp op = true) :
    (TraceConsole.drain (TraceConsole.runOps ops)).2 =
      if SpecSide.c1Msgs 0 ops = [] then []
      else (TraceConsole.ConsoleFn.clog, TraceConsole.headerText)
        :: (SpecSide.c1Msgs 0 ops).map SpecSide.render := by
  have hq : (TraceConsole.runOps ops).queue = SpecSide.c1Msgs 0 ops := by
    have h := TraceConsole.c1_queue ops TraceConsole.ctx0 0 hb rfl
      (by simp [TraceConsole.ctx0]) rfl
    simpa [TraceConsole.ctx0, TraceConsole.runOps] using h
  rw [TraceConsole.drain_snd, hq]

/-- Witness for C1 at a concrete call sequence. -/
theorem claim1_witness :
    (TraceConsole.drain (TraceConsole.runOps
        [TraceConsole.Op.log "a", TraceConsole.Op.indent none,
         TraceConsole.Op.warn "b", TraceConsole.Op.unindent,
         TraceConsole.Op.error "c"])).2 =
      if SpecSide.c1Msgs 0
          [TraceConsole.Op.log "a", TraceConsole.Op.indent none,
           TraceConsole.Op.warn "b", TraceConsole.Op.unindent,
           TraceConsole.Op.error "c"] = [] then []
      else (TraceConsole.ConsoleFn.clog, TraceConsole.headerText)
        :: (SpecSide.c1Msgs 0
            [TraceConsole.Op.log "a", TraceConsole.Op.indent none,
             TraceConsole.Op.warn "b", TraceConsole.Op.unindent,
             TraceConsole.Op.error "c"]).map SpecSide.render :=
  claim1_drain_one_line_per_call _ (by decide)

/-- C2: `leave` pops the most recently pushed scope name (the scope stack
is LIFO: entering A then B and leaving twice pops B before A), joins the
popped name and the message with one space when both are non-empty (name
alone, message alone, or empty otherwise), prefixes the close marker `<`
padded to one indentation unit, and enqueues the result at the
post-decrease width. -/
theorem claim2_leave_pop_join_postwidth (ctx : TraceConsole.Ctx) (msg : String) :
    (TraceConsole.leave ctx msg).names = ctx.names.tail ∧
    (TraceConsole.leave ctx msg).indentLevel = (TraceConsole.unindent ctx).indentLevel ∧
    (TraceConsole.leave ctx msg).indentWidth = (TraceConsole.unindent ctx).indentWidth ∧
    (TraceConsole.leave ctx msg).queue = ctx.queue ++
      [⟨"<" ++ TraceConsole.repeatStr " " (ctx.indentSize - 1).toNat ++
          SpecSide.specJoin (ctx.names.headD "") msg,
        (TraceConsole.unindent ctx).indentWidth, TraceConsole.Message.LOG⟩] ∧
    (TraceConsole.runOps [TraceConsole.Op.enter "A", TraceConsole.Op.enter "B",
        TraceConsole.Op.leave "", TraceConsole.Op.leave ""]).queue.map
        TraceConsole.Message.text
      = ["> A", "> B", "< B", "< A"] := by
  refine ⟨?_, ?_, ?_, ?_, by decide⟩ <;>
    by_cases hl : ctx.indentLevel > 0 <;>
      simp [TraceConsole.leave, TraceConsole.unindent, TraceConsole.write,
        TraceConsole.join2_eq_specJoin, hl]

/-- C3 counterexample: `enter` saves the first run of word characters, not
the first whitespace-delimited token — on the message "foo-bar baz" the
saved name is "foo" while the first whitespace-delimited token is
"foo-bar". -/
theorem claim3_counterexample :
    (TraceConsole.runOps [TraceConsole.Op.enter "foo-bar baz"]).names = ["foo"] ∧
    SpecSide.specFirstToken "foo-bar baz" = "foo-bar" ∧
    ("foo" : String) ≠ "foo-bar" := by decide

/-- C3 (amended): `enter(msg)` enqueues the message behind the open marker
`>` padded to one indentation unit, at the pre-increase width; the first
maximal run of word characters of the message (the whole message when it
has no word character) is pushed onto the scope-name stack; the level is
then increased by one. -/
theorem claim3_amended_enter (ctx : TraceConsole.Ctx) (msg : String) :
    (TraceConsole.enter ctx msg).names = SpecSide.specWordRun msg :: ctx.names ∧
    (TraceConsole.enter ctx msg).queue = ctx.queue ++
      [⟨">" ++ TraceConsole.repeatStr " " (ctx.indentSize - 1).toNat ++ msg,
        ctx.indentWidth, TraceConsole.Message.LOG⟩] ∧
    (TraceConsole.enter ctx msg).indentLevel = ctx.indentLevel + 1 ∧
    (TraceConsole.enter ctx msg).indentWidth = (ctx.indentLevel + 1) * ctx.indentSize ∧
    (TraceConsole.runOps [TraceConsole.Op.enter "foo", TraceConsole.Op.leave ""]).queue.map
        TraceConsole.Message.text = ["> foo", "< foo"] := by
  refine ⟨?_, rfl, rfl, rfl, by decide⟩
  show TraceConsole.enterName msg :: ctx.names = SpecSide.specWordRun msg :: ctx.names
  rw [SpecSide.enterName_eq_specWordRun]

/-- C4 counterexample: drain does not consume the queue, so a second drain
after a first one on a non-empty queue prints again — including another
separator line at its head. -/
theorem claim4_counterexample :
    (TraceConsole.drain ((TraceConsole.drain
        (TraceConsole.log TraceConsole.ctx0 "a")).1)).2 ≠ [] ∧
    ((TraceConsole.drain ((TraceConsole.drain
        (TraceConsole.log TraceConsole.ctx0 "a")).1)).2).headD
        (TraceConsole.ConsoleFn.cerror, "")
      = (TraceConsole.ConsoleFn.clog, TraceConsole.headerText) := by decide

/-- C4 (amended): drain on an empty queue prints nothing, the header line
included; drain leaves the module state unchanged, so a second drain call
reproduces exactly the output of the first — it is a no-op only when the
queue is empty. -/
theorem claim4_amended_drain (c : TraceConsole.Ctx) :
    (TraceConsole.drain ((TraceConsole.drain c).1)).2 = (TraceConsole.drain c).2 ∧
    ((TraceConsole.drain c).2 = [] ↔ c.queue = []) := by
  constructor
  · rw [TraceConsole.drain_fst]
  · rw [TraceConsole.drain_snd]
    by_cases hq : c.queue = [] <;> simp [hq]

/-- C5 counterexample: a bare `unindent` decrements the level without
popping the scope stack, so after `enter("A")` followed by `unindent()` the
stack holds one name while the level is zero. -/
theorem claim5_counterexample :
    ¬ (((TraceConsole.runOps [TraceConsole.Op.enter "A",
          TraceConsole.Op.unindent]).names.length : Int)
        ≤ (TraceConsole.runOps [TraceConsole.Op.enter "A",
            TraceConsole.Op.unindent]).indentLevel) := by decide

/-- C5 (amended): across every sequence of public operations that contains
no bare `unindent`/`groupEnd` call, the size of the scope-name stack stays
less than or equal to the nesting level; a bare `unindent` can drop the
level below the stack size. -/
theorem claim5_amended_invariant (ops : List TraceConsole.Op)
    (h : ∀ op ∈ ops, op ≠ TraceConsole.Op.unindent) :
    ((TraceConsole.runOps ops).names.length : Int)
      ≤ (TraceConsole.runOps ops).indentLevel :=
  (TraceConsole.invStack_runOps ops h).2

/-- Witness for the amended C5 at a concrete call sequence. -/
theorem claim5_witness :
    ((TraceConsole.runOps [TraceConsole.Op.enter "x",
        TraceConsole.Op.leave ""]).names.length : Int)
      ≤ (TraceConsole.runOps [TraceConsole.Op.enter "x",
          TraceConsole.Op.leave ""]).indentLevel :=
  claim5_amended_invariant _ (by decide)

/-- C6: after every sequence of public operations the indentation level is
a non-negative integer and the current width is the level times the fixed
unit; a further `unindent` at level zero leaves the state unchanged (no
error), keeping subsequent messages at width zero. -/
theorem claim6_level_nonneg_floor (ops : List TraceConsole.Op) :
    0 ≤ (TraceConsole.runOps ops).indentLevel ∧
    (TraceConsole.runOps ops).indentWidth
      = (TraceConsole.runOps ops).indentLevel * (TraceConsole.runOps ops).indentSize ∧
    ((TraceConsole.runOps ops).indentLevel = 0 →
      TraceConsole.unindent (TraceConsole.runOps ops) = TraceConsole.runOps ops ∧
      (TraceConsole.runOps ops).indentWidth = 0) := by
  obtain ⟨h1, h2, h3⟩ := TraceConsole.inv_runOps ops
  refine ⟨h1, h2, fun h0 => ⟨?_, ?_⟩⟩
  · rw [TraceConsole.unindent, if_neg (by omega)]
  · rw [h2, h0, zero_mul]

/-- Witness for C6 at a concrete call sequence, its level-zero branch
discharged. -/
theorem claim6_witness :
    TraceConsole.unindent (TraceConsole.runOps [TraceConsole.Op.unindent])
        = TraceConsole.runOps [TraceConsole.Op.unindent] ∧
      (TraceConsole.runOps [TraceConsole.Op.unindent]).indentWidth = 0 :=
  (claim6_level_nonneg_floor [TraceConsole.Op.unindent]).2.2 (by decide)

/-- C7: drain prints one rendered line per queued message, and for a
message stored at width `w` every line of its text — line boundaries inside
the text included — is prefixed with exactly `w` spaces. -/
theorem claim7_multiline_indent (c : TraceConsole.Ctx) (m : TraceConsole.Message)
    (hm : m ∈ c.queue) (_hnl : '\n' ∈ m.text.data) :
    (TraceConsole.drain c).2
      = (TraceConsole.ConsoleFn.clog, TraceConsole.headerText)
          :: c.queue.map SpecSide.render ∧
    SpecSide.splitNl ((SpecSide.render m).2).data
      = (SpecSide.splitNl m.text.data).map
          (fun l => (TraceConsole.spaces m.width.toNat).data ++ l) := by
  constructor
  · rw [TraceConsole.drain_snd, if_neg (List.ne_nil_of_mem hm)]
  · exact TraceConsole.indent_splitNl m.width.toNat m.text

/-- Witness for C7: a two-line message enqueued at width 4. -/
theorem claim7_witness :
    (TraceConsole.drain (TraceConsole.runOps
        [TraceConsole.Op.indent none, TraceConsole.Op.indent none,
         TraceConsole.Op.log "a\nb"])).2
      = (TraceConsole.ConsoleFn.clog, TraceConsole.headerText)
          :: (TraceConsole.runOps
              [TraceConsole.Op.indent none, TraceConsole.Op.indent none,
               TraceConsole.Op.log "a\nb"]).queue.map SpecSide.render ∧
    SpecSide.splitNl ((SpecSide.render
        ⟨"a\nb", 4, TraceConsole.Message.LOG⟩).2).data
      = (SpecSide.splitNl (String.data "a\nb")).map
          (fun l => (TraceConsole.spaces (Int.toNat 4)).data ++ l) :=
  claim7_multiline_indent _ ⟨"a\nb", 4, TraceConsole.Message.LOG⟩
    (by decide) (by decide)

/-- C8 counterexample: in `trace-log`, a message enqueued by `warn` is
printed at drain time with `console.log`, i.e. on the standard output
stream, not the standard error stream the claim demands for warnings. -/
theorem claim8_counterexample :
    (TraceLog.drain (TraceLog.warn TraceLog.ctx0 "x")).2
      = [(TraceConsole.ConsoleFn.clog, TraceConsole.headerText),
         (TraceConsole.ConsoleFn.clog, "x")] ∧
    TraceConsole.chanOf TraceConsole.ConsoleFn.clog = TraceConsole.Chan.out ∧
    TraceConsole.Chan.out ≠ TraceConsole.Chan.err := by decide

/-- C8 (amended): in `trace-console`, drain routes each message by its
severity tag — `LOG` to the standard output stream, anything else (`WARN`,
`ERROR`) to the standard error stream; in `trace-log`, every drained line
goes to the standard output stream regardless of the call that enqueued
it. -/
theorem claim8_amended_channels (c : TraceConsole.Ctx) (m : TraceConsole.Message)
    (hm : m ∈ c.queue) (tc : TraceLog.Ctx) (ln : TraceConsole.Line)
    (hln : ln ∈ (TraceLog.drain tc).2) :
    TraceConsole.chanOf (SpecSide.render m).1
      = (if m.type = TraceConsole.Message.LOG then TraceConsole.Chan.out
         else TraceConsole.Chan.err) ∧
    (TraceConsole.drain c).2
      = (TraceConsole.ConsoleFn.clog, TraceConsole.headerText)
          :: c.queue.map SpecSide.render ∧
    TraceConsole.chanOf ln.1 = TraceConsole.Chan.out := by
  refine ⟨?_, ?_, ?_⟩
  · show TraceConsole.chanOf (TraceConsole.fnOf m.type) = _
    by_cases h1 : m.type = TraceConsole.Message.LOG
    · simp [TraceConsole.fnOf, TraceConsole.chanOf, h1]
    · have h1' : ¬ m.type = 1 := h1
      by_cases h2 : m.type = 2 <;>
        simp [TraceConsole.fnOf, TraceConsole.chanOf, h1', h2,
          TraceConsole.Message.LOG, TraceConsole.Message.WARN]
  · rw [TraceConsole.drain_snd, if_neg (List.ne_nil_of_mem hm)]
  · rw [TraceLog.drain_fn tc ln hln]
    rfl

/-- Witness for the amended C8: a warning in `trace-console` against a
warning in `trace-log`. -/
theorem claim8_witness :
    TraceConsole.chanOf (SpecSide.render
        ⟨"x", 0, TraceConsole.Message.WARN⟩).1
      = (if TraceConsole.Message.WARN = TraceConsole.Message.LOG
         then TraceConsole.Chan.out else TraceConsole.Chan.err) ∧
    (TraceConsole.drain (TraceConsole.runOps [TraceConsole.Op.warn "x"])).2
      = (TraceConsole.ConsoleFn.clog, TraceConsole.headerText)
          :: (TraceConsole.runOps [TraceConsole.Op.warn "x"]).queue.map SpecSide.render ∧
    TraceConsole.chanOf (TraceConsole.ConsoleFn.clog, "y").1 = TraceConsole.Chan.out :=
  claim8_amended_channels (TraceConsole.runOps [TraceConsole.Op.warn "x"])
    ⟨"x", 0, TraceConsole.Message.WARN⟩ (by decide)
    (TraceLog.warn TraceLog.ctx0 "y") (TraceConsole.ConsoleFn.clog, "y") (by decide)

/-- C9: drain leaves every piece of module state unchanged — the queue (so
it is not emptied), the indentation level and width, and the scope-name
stack all keep their values. -/
theorem claim9_drain_frame (c : TraceConsole.Ctx) :
    (TraceConsole.drain c).1.queue = c.queue ∧
    (TraceConsole.drain c).1.indentLevel = c.indentLevel ∧
    (TraceConsole.drain c).1.indentWidth = c.indentWidth ∧
    (TraceConsole.drain c).1.names = c.names := by
  rw [TraceConsole.drain_fst]
  exact ⟨rfl, rfl, rfl, rfl⟩

/-- C10: when the formatted message has no word character (in particular
the empty string produced by calling `enter` with no arguments), `enter`
pushes the message itself onto the scope-name stack and enqueues the open
marker with its padding followed by that message, at the current width. -/
theorem claim10_enter_empty (ctx : TraceConsole.Ctx) (msg : String)
    (h : ∀ ch ∈ msg.data, TraceConsole.wordChar ch = false) :
    (TraceConsole.enter ctx msg).names = msg :: ctx.names ∧
    (TraceConsole.enter ctx msg).queue = ctx.queue ++
      [⟨">" ++ TraceConsole.repeatStr " " (ctx.indentSize - 1).toNat ++ msg,
        ctx.indentWidth, TraceConsole.Message.LOG⟩] := by
  refine ⟨?_, rfl⟩
  show TraceConsole.enterName msg :: ctx.names = msg :: ctx.names
  rw [TraceConsole.enterName_no_word msg h]

/-- Witness for C10: `enter` with no arguments formats to the empty
string. -/
theorem claim10_witness :
    (TraceConsole.enter TraceConsole.ctx0 "").names = "" :: TraceConsole.ctx0.names ∧
    (TraceConsole.enter TraceConsole.ctx0 "").queue = TraceConsole.ctx0.queue ++
      [⟨">" ++ TraceConsole.repeatStr " "
          (TraceConsole.ctx0.indentSize - 1).toNat ++ "",
        TraceConsole.ctx0.indentWidth, TraceConsole.Message.LOG⟩] :=
  claim10_enter_empty TraceConsole.ctx0 "" (by decide)
